import Mathlib

/-!
Verification of the cabin build planner against its natural-language
specification.

The definitions below are shallow embeddings of functions from the cabin
repository (a C++ package manager / build planner).  Each definition's doc
comment names the C++ source function it embeds.  `std::string` values are
modelled as Lean `String`s; the byte-lexicographic comparison of
`std::string::operator<` is modelled by the lexicographic order on the
underlying character list.  `std::unordered_set` / `std::unordered_map`
contents are modelled as lists (insertion sequences) or `Finset`s where the
code is order-insensitive.  Filesystem interaction (existence checks,
modification times, scanner output) is passed in as explicit data.

The file is organised as: all definitions first, then all theorems.
-/

namespace Cabin

/-! ## String ordering

Model of `std::string`'s `operator<` / `operator<=`: lexicographic
comparison of the character sequence.  `std::ranges::sort` on strings is
modelled by insertion sort with this order (the sorted result is unique for
a total order, so the choice of algorithm is immaterial). -/

/-- `std::string` comparison `a <= b`: lexicographic on the character list. -/
def strLe (a b : String) : Prop := a.data ≤ b.data

instance : DecidableRel strLe := fun a b => inferInstanceAs (Decidable (a.data ≤ b.data))

instance : IsTotal String strLe := ⟨fun a b => le_total a.data b.data⟩

instance : IsTrans String strLe := ⟨fun _ _ _ hab hbc => le_trans hab hbc⟩

instance : IsAntisymm String strLe :=
  ⟨fun a b hab hba => by
    cases a; cases b
    exact congrArg String.mk (le_antisymm hab hba)⟩

/-- Model of `std::ranges::sort` on a vector of strings. -/
def sortStrings (l : List String) : List String := l.insertionSort strLe

/-! ## C5: `Edition::tryFromString` (src/lib/Manifest.cc, lines 299-318) -/

/-- The edition years distinguished by `Edition` (Manifest.hpp). -/
inductive EditionYear where
  | cpp98 | cpp03 | cpp11 | cpp14 | cpp17 | cpp20 | cpp23 | cpp26
deriving DecidableEq, Repr

/-- A parsed edition: the year together with the accepted source string. -/
structure Edition where
  edition : EditionYear
  str : String
deriving DecidableEq, Repr

/-- Embedding of `Edition::tryFromString` (src/lib/Manifest.cc:299-318):
the exact chain of string comparisons of the source, with the same
two-spelling alternatives (`"0x" || "11"`, ..., and `"2c"` alone). -/
def Edition.tryFromString (s : String) : Except String Edition :=
  if s = "98" then .ok ⟨.cpp98, s⟩
  else if s = "03" then .ok ⟨.cpp03, s⟩
  else if s = "0x" ∨ s = "11" then .ok ⟨.cpp11, s⟩
  else if s = "1y" ∨ s = "14" then .ok ⟨.cpp14, s⟩
  else if s = "1z" ∨ s = "17" then .ok ⟨.cpp17, s⟩
  else if s = "2a" ∨ s = "20" then .ok ⟨.cpp20, s⟩
  else if s = "2b" ∨ s = "23" then .ok ⟨.cpp23, s⟩
  else if s = "2c" then .ok ⟨.cpp26, s⟩
  else .error "invalid edition"

/-- The strings `Edition::tryFromString` accepts. -/
def acceptedEditions : List String :=
  ["98", "03", "0x", "11", "1y", "14", "1z", "17", "2a", "20", "2b", "23", "2c"]

/-! ## C6: `validateDepName` (src/lib/Manifest.cc, lines 536-587) -/

/-- `ALLOWED_CHARS` (src/lib/Manifest.cc:68-70): the non-alphanumeric
characters allowed in a dependency name. -/
def ALLOWED_CHARS : List Char := ['-', '_', '/', '.', '+']

/-- Embedding of `validateDepName` (src/lib/Manifest.cc:536-587).  The
index loops of the source are rendered over adjacent pairs
(`name[i-1], name[i]` for `i = 1 .. size-1`) and adjacent triples
(`name[i-1], name[i], name[i+1]` for `i = 1 .. size-2`); `name.find` /
`name.rfind` become the index of the first / last occurrence. -/
def validateDepName (name : String) : Except String Unit :=
  let cs := name.data
  if cs.isEmpty then .error "dependency name must not be empty"
  else if ¬ cs.head?.all Char.isAlphanum then
    .error "dependency name must start with an alphanumeric character"
  else if ¬ cs.getLast?.all (fun c => c.isAlphanum || c == '+') then
    .error "dependency name must end with an alphanumeric character or `+`"
  else if ¬ cs.all (fun c => c.isAlphanum || ALLOWED_CHARS.contains c) then
    .error "dependency name must be alphanumeric, `-`, `_`, `/`, `.`, or `+`"
  else if (cs.zip cs.tail).any
      (fun p => p.2 != '+' && !p.2.isAlphanum && p.2 == p.1) then
    .error "dependency name must not contain consecutive non-alphanumeric characters"
  else if (cs.zip (cs.tail.zip cs.tail.tail)).any
      (fun t => t.2.1 == '.' && !(t.1.isDigit && t.2.2.isDigit)) then
    .error "dependency name must contain `.` wrapped by digits"
  else if 1 < cs.count '/' then
    .error "dependency name must not contain more than one `/`"
  else if ¬ (cs.count '+' = 0 ∨ cs.count '+' = 2) then
    .error "dependency name must contain zero or two `+`"
  else if cs.count '+' = 2 ∧
      cs.indexOf '+' + 1 ≠ cs.length - 1 - cs.reverse.indexOf '+' then
    .error "`+` in the dependency name must be consecutive"
  else .ok ()

/-- The dependency-name rule exactly as the claim words it (for comparison
with `validateDepName`): all characters alphanumeric or in `-_/.+`; no two
consecutive non-alphanumeric characters except a repeated `+`; at most one
`/`; `+` only as one consecutive pair (zero or two occurrences); every `.`
immediately preceded and followed by a digit. -/
def claimDepNameRule (name : String) : Bool :=
  let cs := name.data
  cs.all (fun c => c.isAlphanum || ALLOWED_CHARS.contains c) &&
  (cs.zip cs.tail).all
    (fun p => p.1.isAlphanum || p.2.isAlphanum || (p.1 == '+' && p.2 == '+')) &&
  cs.count '/' ≤ 1 &&
  (cs.count '+' == 0 ||
    (cs.count '+' == 2 && (cs.zip cs.tail).any (fun p => p.1 == '+' && p.2 == '+'))) &&
  ((cs.zip (cs.tail.zip cs.tail.tail)).all
      (fun t => t.2.1 == '.' → (t.1.isDigit && t.2.2.isDigit)) &&
    cs.head?.all (fun c => c != '.') && cs.getLast?.all (fun c => c != '.'))

/-- The dependency-name rule the code actually enforces, stated
declaratively (the amended C6 claim): non-empty; first character
alphanumeric; last character alphanumeric or `+`; all characters
alphanumeric or in `-_/.+`; no two *equal* adjacent non-alphanumeric
characters other than `+`; every interior `.` wrapped by digits; at most
one `/`; `+` occurs zero or two times, and when twice, adjacently (first
occurrence + 1 = last occurrence). -/
def depNameOk (name : String) : Prop :=
  let cs := name.data
  cs ≠ [] ∧
  (∀ c, cs.head? = some c → c.isAlphanum = true) ∧
  (∀ c, cs.getLast? = some c → (c.isAlphanum = true ∨ c = '+')) ∧
  (∀ c ∈ cs, c.isAlphanum = true ∨ c ∈ ALLOWED_CHARS) ∧
  (∀ p ∈ cs.zip cs.tail, p.2 ≠ '+' → p.2.isAlphanum = false → p.2 ≠ p.1) ∧
  (∀ t ∈ cs.zip (cs.tail.zip cs.tail.tail), t.2.1 = '.' →
    t.1.isDigit = true ∧ t.2.2.isDigit = true) ∧
  cs.count '/' ≤ 1 ∧
  (cs.count '+' = 0 ∨ cs.count '+' = 2) ∧
  (cs.count '+' = 2 →
    cs.indexOf '+' + 1 = cs.length - 1 - cs.reverse.indexOf '+')

/-! ## C4: `makeDepKey` / `rememberDep` (src/lib/Manifest.cc, lines 187-241) -/

/-- `DepKind` (src/lib/Manifest.cc:79). -/
inductive DepKind where
  | git | path | system
deriving DecidableEq, Repr

/-- `DepKey` (src/lib/Manifest.cc:81-86): kind plus canonicalized detail. -/
structure DepKey where
  kind : DepKind
  detail : String
deriving DecidableEq, Repr

/-- The `Dependency` variant (include/Dependency.hpp): git (url, optional
rev/tag/branch target), path (relative path), or system (version
requirement, kept as its display string). -/
inductive Dependency where
  | git (name url : String) (target : Option String)
  | path (name rel : String)
  | system (name verReq : String)
deriving DecidableEq, Repr

/-- `depName` (src/lib/Manifest.cc:212-226). -/
def depName : Dependency → String
  | .git n _ _ => n
  | .path n _ => n
  | .system n _ => n

/-- Embedding of `makeDepKey` (src/lib/Manifest.cc:187-210).  `canon`
abstracts `canonicalizePathDep` (filesystem canonicalization of
`manifest_dir / relPath`); `basePath` is the directory of the manifest that
declares the dependency. -/
def makeDepKey (canon : String → String → String) (basePath : String) :
    Dependency → DepKey
  | .git _ url target =>
    ⟨.git, url ++ (match target with | some t => "#" ++ t | none => "")⟩
  | .system _ verReq => ⟨.system, verReq⟩
  | .path _ rel => ⟨.path, canon basePath rel⟩

/-- Embedding of `rememberDep` (src/lib/Manifest.cc:228-241): look the name
up in the seen-map (`std::unordered_map` modelled as an association list in
insertion order); insert if absent, accept silently if the key matches,
fail otherwise. -/
def rememberDep (canon : String → String → String) (basePath : String)
    (dep : Dependency) (seen : List (String × DepKey)) :
    Except String (List (String × DepKey)) :=
  let key := makeDepKey canon basePath dep
  let name := depName dep
  match seen.lookup name with
  | none => .ok (seen ++ [(name, key)])
  | some k =>
    if k = key then .ok seen
    else .error ("dependency `" ++ name ++ "` conflicts across manifests")

/-- The sequence of `rememberDep` calls made while the resolver walks the
dependency closure (src/lib/Manifest.cc:249-294): each encountered
dependency is paired with the base path of the manifest that declared it. -/
def rememberDeps (canon : String → String → String) :
    List (String × Dependency) → List (String × DepKey) →
    Except String (List (String × DepKey))
  | [], seen => .ok seen
  | (basePath, dep) :: rest, seen =>
    match rememberDep canon basePath dep seen with
    | .ok seen' => rememberDeps canon rest seen'
    | .error e => .error e

/-- The key of one closure entry, as `rememberDep` computes it. -/
def entryKey (canon : String → String → String) (e : String × Dependency) : DepKey :=
  makeDepKey canon e.1 e.2

/-! ## C10: `Manifest::findPath` (src/lib/Manifest.cc, lines 686-706) -/

/-- Embedding of `Manifest::findPath` (src/lib/Manifest.cc:686-706).  A
directory is its list of path components with the innermost component
first (so `parent_path` is `tail`, and the filesystem root is `[]`).  The
abstract filesystem `fs` tells in which directories `cabin.toml` exists.
The source loop stops without descending further when the parent of the
current directory would be the root directory
(`parentPath != candidateDir.root_directory()` fails), so the root itself
is examined only when the search starts there. -/
def findPath (fs : List String → Bool) : List String → Option (List String)
  | [] => if fs [] then some [] else none
  | c :: rest =>
    if fs (c :: rest) then some (c :: rest)
    else
      match rest with
      | [] => none
      | _ :: _ => findPath fs rest

/-! ## C3: `BuildGraph::isUpToDate` (src/lib/Builder/BuildGraph.cc, lines 123-147) -/

/-- One watched directory (`src/`, `lib/` or `include/` of the project
root): whether it exists, and the modification times of the entries found
by `fs::recursive_directory_iterator`. -/
structure DirScan where
  present : Bool
  entryMtimes : List Nat
deriving DecidableEq, Repr

/-- The filesystem facts `BuildGraph::isUpToDate` reads: the plan file's
modification time (`none` when the file does not exist), the three watched
directories, and the manifest's modification time. -/
structure FreshnessInput where
  planMtime : Option Nat
  srcDir : DirScan
  libDir : DirScan
  includeDir : DirScan
  manifestMtime : Nat
deriving DecidableEq, Repr

/-- The watched directories, in the order the source array lists them. -/
def FreshnessInput.watchedDirs (i : FreshnessInput) : List DirScan :=
  [i.srcDir, i.libDir, i.includeDir]

/-- Embedding of `BuildGraph::isUpToDate` (src/lib/Builder/BuildGraph.cc:
123-147): false when the file is missing; false when any entry of an
existing watched directory is strictly newer than the file; otherwise true
exactly when the manifest is not newer than the file. -/
def isUpToDate (i : FreshnessInput) : Bool :=
  match i.planMtime with
  | none => false
  | some configTime =>
    if i.watchedDirs.any
        (fun d => d.present && d.entryMtimes.any (fun m => configTime < m)) then
      false
    else
      decide (i.manifestMtime ≤ configTime)

/-! ## C8: `LdFlags` lib deduplication (src/lib/Builder/Compiler.cc, lines 242-272)

A `Lib` carries just its name (the `-l<name>` payload); deduplication keys
on `lib.name`, so a lib is modelled as its name string. -/

/-- Inner loop shared by the `LdFlags` constructor and `LdFlags::merge`:
walk `libs` in order and keep each lib whose name enters `libSet` freshly
(`libSet.insert(lib.name).second`). -/
def dedupLibsFrom (libSet : List String) : List String → List String
  | [] => []
  | l :: ls =>
    if libSet.contains l then dedupLibsFrom libSet ls
    else l :: dedupLibsFrom (l :: libSet) ls

/-- Embedding of the `LdFlags` constructor's dedup pass
(src/lib/Builder/Compiler.cc:242-254): remove duplicate lib names, keeping
the first occurrence. -/
def dedupLibs (libs : List String) : List String := dedupLibsFrom [] libs

/-- Embedding of the `libs` part of `LdFlags::merge`
(src/lib/Builder/Compiler.cc:256-272): seed the seen-set with the current
lib names, dedup the incoming libs against it, and append the survivors. -/
def mergeLibs (libs other : List String) : List String :=
  libs ++ dedupLibsFrom libs other

/-! ## C2: the compile-unit map (src/lib/Builder/BuildGraph.cc, lines 200-216) -/

/-- `BuildGraph::CompileUnit` (include/Builder/BuildGraph.hpp:61-65). -/
structure CompileUnit where
  source : String
  dependencies : List String
  isTest : Bool
deriving DecidableEq, Repr

/-- `compileUnits[objTarget] = CompileUnit{...}` of
`BuildGraph::registerCompileUnit` (src/lib/Builder/BuildGraph.cc:203-205):
`std::unordered_map::operator[]` assignment, i.e. overwrite the entry if
the key is present, insert it otherwise.  The map is modelled as an
association list with at most one entry per key. -/
def mapSet (m : List (String × CompileUnit)) (k : String) (u : CompileUnit) :
    List (String × CompileUnit) :=
  if (m.lookup k).isSome then
    m.map (fun p => if p.1 = k then (k, u) else p)
  else
    m ++ [(k, u)]

/-- The compile-unit map produced by a sequence of `registerCompileUnit`
calls (object target paired with the unit being registered). -/
def registerUnits (regs : List (String × CompileUnit)) :
    List (String × CompileUnit) :=
  regs.foldl (fun m r => mapSet m r.1 r.2) []

/-! ## C1: the edge input lists the planner emits
(src/lib/Builder/BuildGraph.cc) -/

/-- `NinjaEdge` (include/Builder/NinjaPlan.hpp:10-17). -/
structure NinjaEdge where
  outputs : List String
  rule : String
  inputs : List String
  implicitInputs : List String
  orderOnlyInputs : List String
  bindings : List (String × String)
deriving DecidableEq, Repr

/-- `parentDirOrDot` (src/lib/Builder/BuildGraph.cc:37-43) for the
relative, `/`-separated target strings the planner passes it: everything
before the last `/`, or `"."` when there is no parent. -/
def parentDirOrDot (path : String) : String :=
  let rev := path.data.reverse
  if rev.contains '/' then String.mk ((rev.dropWhile (fun c => c ≠ '/')).drop 1).reverse
  else "."

/-- The compile edge built by `BuildGraph::registerCompileUnit`
(src/lib/Builder/BuildGraph.cc:207-215): inputs are the single source
file; implicit inputs are the scanner's dependency set assigned to a
vector and sorted.  `dependencies` is an enumeration of that
`std::unordered_set` (in arbitrary order, without duplicates). -/
def compileEdge (objTarget sourceFile : String) (dependencies : List String)
    (isTest : Bool) : NinjaEdge where
  outputs := [objTarget]
  rule := "cxx_compile"
  inputs := [sourceFile]
  implicitInputs := sortStrings dependencies
  orderOnlyInputs := []
  bindings :=
    [("out_dir", parentDirOrDot objTarget),
     ("extra_flags", if isTest then "-DCABIN_TEST" else "")]

/-- The link inputs of the unit-test `cxx_link_exe` edge built by
`BuildGraph::processUnittestSrc` (src/lib/Builder/BuildGraph.cc:433-448):
first the test's own object, then (for a test under `src/`) the sorted
transitive source-object closure, then (when a library target exists) the
archive name appended last.  `srcClosure` enumerates the collected
dependency set. -/
def unittestLinkInputs (testObjTarget : String) (isSrcUnit : Bool)
    (srcClosure : List String) (hasLibraryTarget : Bool) (libName : String) :
    List String :=
  [testObjTarget]
    ++ (if isSrcUnit then sortStrings srcClosure else [])
    ++ (if hasLibraryTarget then [libName] else [])

/-- The unit-test link edge (src/lib/Builder/BuildGraph.cc:450-456). -/
def unittestLinkEdge (testBinary testObjTarget : String) (isSrcUnit : Bool)
    (srcClosure : List String) (hasLibraryTarget : Bool) (libName : String) :
    NinjaEdge where
  outputs := [testBinary]
  rule := "cxx_link_exe"
  inputs := unittestLinkInputs testObjTarget isSrcUnit srcClosure
    hasLibraryTarget libName
  implicitInputs := []
  orderOnlyInputs := []
  bindings := [("out_dir", parentDirOrDot testBinary)]

/-- The link inputs of the integration-test `cxx_link_exe` edge built by
`BuildGraph::processIntegrationTestSrc`
(src/lib/Builder/BuildGraph.cc:488-492): the test object plus optionally
the archive name, sorted. -/
def integrationLinkInputs (testObjTarget : String) (hasLibraryTarget : Bool)
    (libName : String) : List String :=
  sortStrings ([testObjTarget] ++ (if hasLibraryTarget then [libName] else []))

/-- The link inputs of the binary `cxx_link_exe` edge built by
`BuildGraph::configure` (src/lib/Builder/BuildGraph.cc:659-689).  `deps`
enumerates the collected object-dependency set (which contains `mainObj`);
`libObjTargets` enumerates the library-object set.  With a library target
the main object stays first, the remaining source objects (library objects
excluded) are sorted in between, and the archive name is appended last;
without one the whole set is sorted. -/
def binaryLinkInputs (mainObj : String) (deps : List String)
    (libObjTargets : List String) (hasLibraryTarget : Bool) (libName : String) :
    List String :=
  if hasLibraryTarget then
    let srcInputs :=
      sortStrings ((deps.erase mainObj).filter (fun d => ¬ libObjTargets.contains d))
    mainObj :: (srcInputs ++ [libName])
  else
    sortStrings deps

/-- The inputs of the `cxx_link_static_lib` archive edge built by
`BuildGraph::configure` (src/lib/Builder/BuildGraph.cc:701-717): the
library-object set, sorted. -/
def libraryArchiveInputs (libObjTargets : List String) : List String :=
  sortStrings libObjTargets

/-! ## C7: `Builder::test` (src/src/Builder/Builder.cc, lines 114-168) and
the test-target ordering of `BuildGraph::configure`
(src/lib/Builder/BuildGraph.cc, lines 751-762) -/

/-- `BuildGraph::TestKind` (include/Builder/BuildGraph.hpp:29). -/
inductive TestKind where
  | unit | integration
deriving DecidableEq, Repr

/-- `BuildGraph::TestTarget` (include/Builder/BuildGraph.hpp:31-35). -/
structure TestTarget where
  ninjaTarget : String
  sourcePath : String
  kind : TestKind
deriving DecidableEq, Repr

/-- Comparison used by `BuildGraph::configure` to sort discovered tests
(src/lib/Builder/BuildGraph.cc:751-754): by executor target name. -/
def testTargetLe (a b : TestTarget) : Prop := strLe a.ninjaTarget b.ninjaTarget

instance : DecidableRel testTargetLe :=
  fun a b => inferInstanceAs (Decidable (strLe a.ninjaTarget b.ninjaTarget))

instance : IsTotal TestTarget testTargetLe :=
  ⟨fun a b => IsTotal.total (r := strLe) a.ninjaTarget b.ninjaTarget⟩

instance : IsTrans TestTarget testTargetLe :=
  ⟨fun _ _ _ hab hbc => Trans.trans (r := strLe) hab hbc⟩

/-- The sort of discovered test targets performed by
`BuildGraph::configure` (src/lib/Builder/BuildGraph.cc:751-755). -/
def sortTestTargets (targets : List TestTarget) : List TestTarget :=
  targets.insertionSort testTargetLe

/-- The filter check of `Builder::test`
(src/src/Builder/Builder.cc:133-134): a target is filtered out iff a
filter was given and the executor target name does not contain it as a
substring. -/
def matchesFilter (filter : Option String) (target : String) : Bool :=
  match filter with
  | none => true
  | some f => decide (f.data <:+: target.data)

/-- The running state of the test loop of `Builder::test`
(src/src/Builder/Builder.cc:117-153): the three counters, the sequence of
executed binaries (the observable order of `execCmd` calls), and whether
`summaryStatus` is still a success. -/
structure TestRunState where
  numPassed : Nat
  numFailed : Nat
  numFilteredOut : Nat
  executed : List String
  summaryOk : Bool
deriving DecidableEq, Repr

/-- One iteration of the test loop (src/src/Builder/Builder.cc:132-153).
`exitOf` gives the exit code of a test binary (0 = success). -/
def runTestsStep (exitOf : String → Nat) (filter : Option String)
    (st : TestRunState) (t : TestTarget) : TestRunState :=
  if ¬ matchesFilter filter t.ninjaTarget then
    { st with numFilteredOut := st.numFilteredOut + 1 }
  else if exitOf t.ninjaTarget = 0 then
    { st with numPassed := st.numPassed + 1,
              executed := st.executed ++ [t.ninjaTarget] }
  else
    { st with numFailed := st.numFailed + 1,
              executed := st.executed ++ [t.ninjaTarget],
              summaryOk := false }

/-- The state before the loop (src/src/Builder/Builder.cc:117-120). -/
def initialTestRunState : TestRunState :=
  { numPassed := 0, numFailed := 0, numFilteredOut := 0, executed := [],
    summaryOk := true }

/-- The whole test loop of `Builder::test` over a list of targets. -/
def runTests (exitOf : String → Nat) (filter : Option String)
    (targets : List TestTarget) : TestRunState :=
  targets.foldl (runTestsStep exitOf filter) initialTestRunState

/-- The summary line of `Builder::test` (src/src/Builder/Builder.cc:
158-160); `dur` stands for the formatted elapsed seconds. -/
def mkTestSummary (p f fo : Nat) (dur : String) : String :=
  s!"{p} passed; {f} failed; {fo} filtered out; finished in {dur}s"

/-- The result of `Builder::test` after the loop
(src/src/Builder/Builder.cc:161-167): an error carrying the summary when
`summaryStatus` is a failure, success otherwise.  The targets are the
sorted test targets exposed by `BuildGraph::configure`. -/
def builderTestOutcome (exitOf : String → Nat) (filter : Option String)
    (dur : String) (targets : List TestTarget) : Except String Unit :=
  let st := runTests exitOf filter (sortTestTargets targets)
  if st.summaryOk then .ok ()
  else .error (mkTestSummary st.numPassed st.numFailed st.numFilteredOut dur)

/-! ## C9: `BuildGraph::collectBinDepObjs`
(src/lib/Builder/BuildGraph.cc, lines 519-548) -/

/-- The data `collectBinDepObjs` consults: the compile-unit map (object
target to its scanner dependency set, as an association list), and the
path-level helpers, kept abstract because the claim is about the traversal:
`mapHeaderToObj` (src/lib/Builder/BuildGraph.cc:149-198), the
`HEADER_FILE_EXTS` extension test and the filename-stem function. -/
structure CUGraphModel where
  units : List (String × List String)
  mapHeaderToObj : String → String
  isHeaderName : String → Bool
  stemOf : String → String

/-- The dependency set of a compile unit (`compileUnits.find(objTarget)`),
empty when the unit is unknown. -/
def unitDeps (g : CUGraphModel) (t : String) : List String :=
  (g.units.lookup t).getD []

/-- Embedding of `BuildGraph::collectBinDepObjs`
(src/lib/Builder/BuildGraph.cc:519-548) with an explicit recursion-depth
budget `fuel`: for each scanner dependency, skip it when its stem equals
the source file name, when it is not a header, when its mapped object
target is not buildable, or when that target is already in `deps`;
otherwise insert the target and recurse into its compile unit.  In the
source the recursion is guarded only by the freshness of the insertion;
the budget is exhausted-fuel-skips-expansion, and the C9 theorem shows any
budget of at least `(targets \ deps).card` gives the same result, which is
exactly the termination argument of the claim. -/
def collectF (g : CUGraphModel) (targets : Finset String)
    (sourceFileName : String) :
    Nat → Finset String → List String → Finset String
  | _, deps, [] => deps
  | fuel, deps, h :: hs =>
    if sourceFileName = g.stemOf h then
      collectF g targets sourceFileName fuel deps hs
    else if ¬ g.isHeaderName h then
      collectF g targets sourceFileName fuel deps hs
    else
      if g.mapHeaderToObj h ∈ targets then
        if g.mapHeaderToObj h ∈ deps then
          collectF g targets sourceFileName fuel deps hs
        else
          match fuel with
          | 0 => collectF g targets sourceFileName 0 deps hs
          | fuel' + 1 =>
            collectF g targets sourceFileName (fuel' + 1)
              (collectF g targets sourceFileName fuel'
                (insert (g.mapHeaderToObj h) deps)
                (unitDeps g (g.mapHeaderToObj h)))
              hs
      else
        collectF g targets sourceFileName fuel deps hs
termination_by fuel _ hdrs => (fuel, hdrs.length)

/-- `collectBinDepObjs` with the budget the C9 theorem proves sufficient. -/
def collectBinDepObjs (g : CUGraphModel) (targets : Finset String)
    (sourceFileName : String) (deps : Finset String) (hdrs : List String) :
    Finset String :=
  collectF g targets sourceFileName (targets \ deps).card deps hdrs

/-! ## Theorems -/

/-- C5, counterexample: the claim says `Edition::tryFromString` succeeds
exactly on the eight numeric editions, in particular on `"26"`, and fails
on everything else, in particular on `"2c"`.  The code rejects `"26"` with
`invalid edition` and accepts `"2c"` (as C++26); its own unit tests
(`testEditionTryFromString`) pin this behaviour down. -/
theorem edition_tryFromString_claim_refuted :
    Edition.tryFromString "26" = .error "invalid edition" ∧
    (Edition.tryFromString "2c").isOk = true := by
  exact ⟨rfl, rfl⟩

/-- C5, amended: `Edition::tryFromString` succeeds exactly on the thirteen
strings `98, 03, 0x, 11, 1y, 14, 1z, 17, 2a, 20, 2b, 23, 2c` (the eight
numeric spellings except `26`, plus the six pre-standard spellings
`0x 1y 1z 2a 2b 2c`), and fails with `invalid edition` on every other
string. -/
theorem edition_tryFromString_accepts_iff (s : String) :
    ((Edition.tryFromString s).isOk = true ↔ s ∈ acceptedEditions) ∧
    (s ∉ acceptedEditions →
      Edition.tryFromString s = .error "invalid edition") := by
  constructor
  · simp only [Edition.tryFromString, acceptedEditions]
    split_ifs <;> simp_all [Except.isOk, Except.toBool] <;> tauto
  · intro hs
    simp only [acceptedEditions, List.mem_cons, List.not_mem_nil] at hs
    push_neg at hs
    simp only [Edition.tryFromString]
    split_ifs <;> simp_all

/-- C5 witness: `"99"` is not an accepted edition and is rejected with
`invalid edition`. -/
theorem edition_tryFromString_accepts_iff_witness :
    "99" ∉ acceptedEditions ∧
    Edition.tryFromString "99" = .error "invalid edition" :=
  ⟨by decide, (edition_tryFromString_accepts_iff "99").2 (by decide)⟩

/-- Helper: the ascending search equals a `find?` over the suffix chain
that skips the empty (root) suffix. -/
theorem findPath_eq_tails_find? (fs : List String → Bool) (c : String)
    (rest : List String) :
    findPath fs (c :: rest) =
      (c :: rest).tails.find? (fun s => !s.isEmpty && fs s) := by
  induction rest generalizing c with
  | nil => by_cases h : fs [c] <;> simp [findPath, h, List.tails, List.find?]
  | cons c' rest' ih =>
    have hstep : findPath fs (c :: c' :: rest') =
        if fs (c :: c' :: rest') = true then some (c :: c' :: rest')
        else findPath fs (c' :: rest') := rfl
    rw [hstep, ih c']
    by_cases h : fs (c :: c' :: rest') <;>
      simp [h, List.tails, List.find?]

/-- C10: `Manifest::findPath` inspects exactly the non-root directories on
the path from the start upward: for a search started below the root the
result is the first non-root suffix of the component chain holding
`cabin.toml` (the root `[]` is skipped, matching the
`parentPath != root_directory` guard), so such a search never returns the
root even when the root holds a manifest; a manifest in the root directory
is found exactly when the search starts at the root. -/
theorem findPath_spec (fs : List String → Bool) (c : String)
    (rest : List String) :
    (findPath fs (c :: rest) =
      (c :: rest).tails.find? (fun s => !s.isEmpty && fs s)) ∧
    (∀ r, findPath fs (c :: rest) = some r → r ≠ []) ∧
    (findPath fs [] = some [] ↔ fs [] = true) := by
  refine ⟨findPath_eq_tails_find? fs c rest, ?_, ?_⟩
  · intro r hr
    rw [findPath_eq_tails_find? fs c rest] at hr
    have hpred := List.find?_some hr
    simp only [Bool.and_eq_true, Bool.not_eq_true'] at hpred
    intro hempty
    rw [hempty] at hpred
    simp at hpred
  · by_cases h : fs [] <;> simp [findPath, h]

/-- C10 witness: start one level below the root, with a manifest
everywhere; the search finds the starting directory and, per the theorem,
the result is not the root. -/
theorem findPath_spec_witness :
    findPath (fun _ => true) ["a"] = some ["a"] ∧ (["a"] : List String) ≠ [] :=
  ⟨rfl, (findPath_spec (fun _ => true) "a" []).2.1 ["a"] rfl⟩

/-- C3: `BuildGraph::isUpToDate` returns true iff the plan file exists and
its mtime is at least every entry mtime under each existing watched
directory and at least the manifest mtime; and any entry strictly newer
than the plan file under an existing watched directory forces the result
to false (touching a watched file flips the oracle). -/
theorem isUpToDate_iff (i : FreshnessInput) :
    (isUpToDate i = true ↔
      ∃ t, i.planMtime = some t ∧
        (∀ d ∈ i.watchedDirs, d.present = true →
          ∀ m ∈ d.entryMtimes, m ≤ t) ∧
        i.manifestMtime ≤ t) ∧
    (∀ t d m, i.planMtime = some t → d ∈ i.watchedDirs →
      d.present = true → m ∈ d.entryMtimes → t < m →
      isUpToDate i = false) := by
  constructor
  · cases hp : i.planMtime with
    | none => simp [isUpToDate, hp]
    | some t =>
      simp only [isUpToDate, hp]
      by_cases hany : i.watchedDirs.any
          (fun d => d.present && d.entryMtimes.any (fun m => t < m)) = true
      · rw [if_pos hany]
        simp only [Bool.false_eq_true, false_iff]
        rintro ⟨t', ht', hdirs, _⟩
        rw [Option.some_inj] at ht'
        subst ht'
        rw [List.any_eq_true] at hany
        obtain ⟨d, hd, hdcond⟩ := hany
        rw [Bool.and_eq_true, List.any_eq_true] at hdcond
        obtain ⟨hpres, m, hm, hlt⟩ := hdcond
        have := hdirs d hd hpres m hm
        simp only [decide_eq_true_eq] at hlt
        omega
      · rw [if_neg hany]
        rw [Bool.not_eq_true, List.any_eq_false] at hany
        simp only [decide_eq_true_eq]
        constructor
        · intro hmf
          refine ⟨t, rfl, ?_, hmf⟩
          intro d hd hpres m hm
          have hnd := hany d hd
          simp only [Bool.and_eq_true, not_and, List.any_eq_true, not_exists,
            not_and, decide_eq_true_eq] at hnd
          have := hnd hpres m hm
          omega
        · rintro ⟨t', ht', _, hmf⟩
          rw [Option.some_inj] at ht'
          subst ht'
          exact hmf
  · intro t d m hp hd hpres hm hlt
    simp only [isUpToDate, hp]
    have hany : i.watchedDirs.any
        (fun d => d.present && d.entryMtimes.any (fun m => t < m)) = true := by
      rw [List.any_eq_true]
      refine ⟨d, hd, ?_⟩
      rw [Bool.and_eq_true, List.any_eq_true]
      exact ⟨hpres, m, hm, by simpa using hlt⟩
    rw [if_pos hany]

/-- C3 witness: a plan file at mtime 5 with a `src/` entry at mtime 3,
manifest at mtime 4: up to date; and at a concrete newer entry (mtime 7)
the oracle is false. -/
theorem isUpToDate_iff_witness :
    (isUpToDate (FreshnessInput.mk (some 5) ⟨true, [3]⟩ ⟨false, []⟩
      ⟨true, []⟩ 4) = true) ∧
    (isUpToDate (FreshnessInput.mk (some 5) ⟨true, [7]⟩ ⟨false, []⟩
      ⟨true, []⟩ 4) = false) := by
  constructor
  · exact (isUpToDate_iff _).1.mpr ⟨5, rfl, by decide, by decide⟩
  · exact (isUpToDate_iff _).2 5 ⟨true, [7]⟩ 7 rfl (by decide) rfl (by decide)
      (by decide)

/-- Helper: `Option.or` with a `some` on the left. -/
theorem option_some_or {α : Type} (a : α) (o : Option α) : (some a).or o = some a := rfl

/-- Helper: `lookup` over an appended association list tries the left part
first. -/
theorem lookup_append {α β : Type} [BEq α] (l₁ l₂ : List (α × β)) (a : α) :
    (l₁ ++ l₂).lookup a = ((l₁.lookup a).or (l₂.lookup a)) := by
  induction l₁ with
  | nil => simp [List.lookup]
  | cons p l ih =>
    obtain ⟨k, v⟩ := p
    simp only [List.cons_append, List.lookup]
    by_cases h : a == k
    · simp only [h, option_some_or]
    · rw [Bool.not_eq_true] at h
      simp only [h]
      exact ih

/-- Helper: the seen-map check of `rememberDeps` succeeds iff every
encountered dependency agrees with the key the seen-map already records
for its name, and no two encountered dependencies of equal name have
different keys. -/
theorem rememberDeps_isOk_iff (canon : String → String → String)
    (entries : List (String × Dependency)) (seen : List (String × DepKey)) :
    (rememberDeps canon entries seen).isOk = true ↔
      ((∀ e ∈ entries, ∀ k, seen.lookup (depName e.2) = some k →
          entryKey canon e = k) ∧
       ∀ e₁ ∈ entries, ∀ e₂ ∈ entries,
         depName e₁.2 = depName e₂.2 → entryKey canon e₁ = entryKey canon e₂) := by
  induction entries generalizing seen with
  | nil => simp [rememberDeps, Except.isOk, Except.toBool]
  | cons e rest ih =>
    obtain ⟨bp, d⟩ := e
    have hkey : entryKey canon (bp, d) = makeDepKey canon bp d := rfl
    cases hlook : seen.lookup (depName d) with
    | none =>
      have hstep : rememberDeps canon ((bp, d) :: rest) seen =
          rememberDeps canon rest
            (seen ++ [(depName d, makeDepKey canon bp d)]) := by
        simp [rememberDeps, rememberDep, hlook]
      rw [hstep, ih]
      constructor
      · rintro ⟨hcompat, hcf⟩
        refine ⟨?_, ?_⟩
        · intro e' he' k hk
          rcases List.mem_cons.mp he' with he' | he'
          · subst he'
            rw [hlook] at hk
            exact absurd hk (by simp)
          · refine hcompat e' he' k ?_
            rw [lookup_append, hk, option_some_or]
        · intro e₁ h₁ e₂ h₂ hname
          have key_of_name_d : ∀ e', e' ∈ rest → depName e'.2 = depName d →
              entryKey canon e' = makeDepKey canon bp d := by
            intro e' he' hn
            refine hcompat e' he' _ ?_
            rw [lookup_append, hn, hlook, Option.none_or]
            simp [List.lookup]
          rcases List.mem_cons.mp h₁ with h₁ | h₁ <;>
            rcases List.mem_cons.mp h₂ with h₂ | h₂
          · subst h₁; subst h₂; rfl
          · subst h₁
            rw [hkey, Eq.symm (key_of_name_d e₂ h₂ hname.symm)]
          · subst h₂
            rw [hkey]
            exact key_of_name_d e₁ h₁ hname
          · exact hcf e₁ h₁ e₂ h₂ hname
      · rintro ⟨hcompat, hcf⟩
        refine ⟨?_, ?_⟩
        · intro e' he' k hk
          rw [lookup_append] at hk
          cases hs : seen.lookup (depName e'.2) with
          | some k' =>
            rw [hs, option_some_or] at hk
            exact hcompat e' (List.mem_cons_of_mem _ he') k
              (by rw [hs, ← hk])
          | none =>
            rw [hs, Option.none_or] at hk
            by_cases hn : depName e'.2 = depName d
            · have hbeq : (depName e'.2 == depName d) = true := by
                simpa using hn
              rw [List.lookup, hbeq] at hk
              have := hcf e' (List.mem_cons_of_mem _ he') (bp, d)
                (List.mem_cons_self _ _) hn
              rw [this, hkey]
              exact Option.some_inj.mp hk
            · have hbeq : (depName e'.2 == depName d) = false := by
                simpa using hn
              rw [List.lookup, hbeq] at hk
              exact absurd hk (by simp [List.lookup])
        · intro e₁ h₁ e₂ h₂ hname
          exact hcf e₁ (List.mem_cons_of_mem _ h₁) e₂
            (List.mem_cons_of_mem _ h₂) hname
    | some k =>
      by_cases hkeq : k = makeDepKey canon bp d
      · subst hkeq
        have hstep : rememberDeps canon ((bp, d) :: rest) seen =
            rememberDeps canon rest seen := by
          simp [rememberDeps, rememberDep, hlook]
        rw [hstep, ih]
        constructor
        · rintro ⟨hcompat, hcf⟩
          refine ⟨?_, ?_⟩
          · intro e' he' k' hk'
            rcases List.mem_cons.mp he' with he' | he'
            · subst he'
              rw [hlook] at hk'
              rw [hkey]
              exact Option.some_inj.mp hk'
            · exact hcompat e' he' k' hk'
          · intro e₁ h₁ e₂ h₂ hname
            have key_of_name_d : ∀ e', e' ∈ rest → depName e'.2 = depName d →
                entryKey canon e' = makeDepKey canon bp d := by
              intro e' he' hn
              refine hcompat e' he' _ ?_
              rw [hn]
              exact hlook
            rcases List.mem_cons.mp h₁ with h₁ | h₁ <;>
              rcases List.mem_cons.mp h₂ with h₂ | h₂
            · subst h₁; subst h₂; rfl
            · subst h₁
              rw [hkey, Eq.symm (key_of_name_d e₂ h₂ hname.symm)]
            · subst h₂
              rw [hkey]
              exact key_of_name_d e₁ h₁ hname
            · exact hcf e₁ h₁ e₂ h₂ hname
        · rintro ⟨hcompat, hcf⟩
          exact ⟨fun e' he' k' hk' =>
              hcompat e' (List.mem_cons_of_mem _ he') k' hk',
            fun e₁ h₁ e₂ h₂ hname =>
              hcf e₁ (List.mem_cons_of_mem _ h₁) e₂
                (List.mem_cons_of_mem _ h₂) hname⟩
      · have hstep : rememberDeps canon ((bp, d) :: rest) seen =
            .error ("dependency `" ++ depName d ++ "` conflicts across manifests") := by
          simp [rememberDeps, rememberDep, hlook, hkeq]
        rw [hstep]
        simp only [Except.isOk, Except.toBool, Bool.false_eq_true, false_iff]
        rintro ⟨hcompat, _⟩
        exact hkeq (hkey ▸ (hcompat (bp, d) (List.mem_cons_self _ _) k hlook)).symm

/-- Helper: every error `rememberDeps` produces is the conflict message for
some dependency name. -/
theorem rememberDeps_error_shape (canon : String → String → String)
    (entries : List (String × Dependency)) (seen : List (String × DepKey)) :
    ∀ msg, rememberDeps canon entries seen = .error msg →
      ∃ n, msg = "dependency `" ++ n ++ "` conflicts across manifests" := by
  induction entries generalizing seen with
  | nil => intro msg h; exact absurd h (by simp [rememberDeps])
  | cons e rest ih =>
    obtain ⟨bp, d⟩ := e
    intro msg h
    cases hlook : (seen.lookup (depName d)) with
    | none =>
      rw [show rememberDeps canon ((bp, d) :: rest) seen =
          rememberDeps canon rest
            (seen ++ [(depName d, makeDepKey canon bp d)]) by
        simp [rememberDeps, rememberDep, hlook]] at h
      exact ih _ msg h
    | some k =>
      by_cases hkeq : k = makeDepKey canon bp d
      · subst hkeq
        rw [show rememberDeps canon ((bp, d) :: rest) seen =
            rememberDeps canon rest seen by
          simp [rememberDeps, rememberDep, hlook]] at h
        exact ih _ msg h
      · rw [show rememberDeps canon ((bp, d) :: rest) seen =
            .error ("dependency `" ++ depName d ++ "` conflicts across manifests") by
          simp [rememberDeps, rememberDep, hlook, hkeq]] at h
        exact ⟨depName d, (Except.error.injEq _ _ ▸ h).symm ▸ rfl⟩

/-- C4: walking the closure, the resolver's seen-map check succeeds iff no
dependency name is encountered with two distinct `DepKey`s (kind plus
canonicalized detail; re-encountering a name with an equal key is fine),
and every failure it can produce is the message
``dependency `<name>` conflicts across manifests``. -/
theorem dependency_conflict_iff (canon : String → String → String)
    (entries : List (String × Dependency)) :
    ((rememberDeps canon entries []).isOk = true ↔
      ∀ e₁ ∈ entries, ∀ e₂ ∈ entries,
        depName e₁.2 = depName e₂.2 → entryKey canon e₁ = entryKey canon e₂) ∧
    (∀ msg, rememberDeps canon entries [] = .error msg →
      ∃ n, msg = "dependency `" ++ n ++ "` conflicts across manifests") := by
  constructor
  · rw [rememberDeps_isOk_iff]
    simp [List.lookup]
  · exact rememberDeps_error_shape canon entries []

/-- C4 witness: two path dependencies named `fmt` resolving to different
canonical paths conflict, with the exact message. -/
theorem dependency_conflict_iff_witness :
    ∃ n, "dependency `fmt` conflicts across manifests" =
      "dependency `" ++ n ++ "` conflicts across manifests" :=
  (dependency_conflict_iff (fun b r => b ++ "/" ++ r)
      [("m1", Dependency.path "fmt" "shared"),
       ("m2", Dependency.path "fmt" "other")]).2
    "dependency `fmt` conflicts across manifests" rfl

/-- Helper: `Option.all` as a universally quantified statement. -/
theorem option_all_iff {α : Type} (p : α → Bool) (o : Option α) :
    o.all p = true ↔ ∀ a, o = some a → p a = true := by
  cases o <;> simp [Option.all]

/-- C6, counterexample: the claim's rule set accepts `a-` (all characters
allowed, no consecutive non-alphanumerics, no `/`, `+`, `.`), but the code
rejects it (a dependency name must end alphanumeric or `+`); conversely
the claim rejects `a-_b` (adjacent non-alphanumerics `-_`), but the code
accepts it (its consecutive check only fires on *equal* adjacent
non-alphanumeric characters). -/
theorem validateDepName_claim_refuted :
    claimDepNameRule "a-" = true ∧ (validateDepName "a-").isOk = false ∧
    claimDepNameRule "a-_b" = false ∧ (validateDepName "a-_b").isOk = true := by
  exact ⟨by decide, by decide, by decide, by decide⟩

/-- C6, amended: `validateDepName` accepts a name iff it is non-empty,
starts alphanumeric, ends alphanumeric or `+`, uses only alphanumerics and
`-_/.+`, has no two equal adjacent non-alphanumeric characters other than
`+`, wraps every interior `.` in digits, contains at most one `/`, and
contains `+` zero or two times with the two occurrences adjacent. -/
theorem validateDepName_isOk_iff (name : String) :
    (validateDepName name).isOk = true ↔ depNameOk name := by
  simp only [validateDepName, depNameOk]
  by_cases h1 : name.data.isEmpty = true
  · rw [if_pos h1]
    simp only [Except.isOk, Except.toBool, Bool.false_eq_true, false_iff]
    rintro ⟨hne, -⟩
    exact hne (List.isEmpty_iff.mp h1)
  · rw [if_neg h1]
    by_cases h2 : Option.all Char.isAlphanum name.data.head? = true
    · rw [if_neg (not_not_intro h2)]
      by_cases h3 : Option.all (fun c => c.isAlphanum || c == '+')
          name.data.getLast? = true
      · rw [if_neg (not_not_intro h3)]
        by_cases h4 : (name.data.all
            (fun c => c.isAlphanum || ALLOWED_CHARS.contains c)) = true
        · rw [if_neg (not_not_intro h4)]
          by_cases h5 : ((name.data.zip name.data.tail).any
              (fun p => p.2 != '+' && !p.2.isAlphanum && p.2 == p.1)) = true
          · rw [if_pos h5]
            simp only [Except.isOk, Except.toBool, Bool.false_eq_true, false_iff]
            rintro ⟨-, -, -, -, hpairs, -⟩
            rw [List.any_eq_true] at h5
            obtain ⟨p, hp, hcond⟩ := h5
            simp only [Bool.and_eq_true, bne_iff_ne, Bool.not_eq_true',
              beq_iff_eq] at hcond
            exact hpairs p hp hcond.1.1 hcond.1.2 hcond.2
          · rw [if_neg h5]
            by_cases h6 : ((name.data.zip (name.data.tail.zip
                name.data.tail.tail)).any
                (fun t => t.2.1 == '.' && !(t.1.isDigit && t.2.2.isDigit))) = true
            · rw [if_pos h6]
              simp only [Except.isOk, Except.toBool, Bool.false_eq_true,
                false_iff]
              rintro ⟨-, -, -, -, -, htrip, -⟩
              rw [List.any_eq_true] at h6
              obtain ⟨t, ht, hcond⟩ := h6
              simp only [Bool.and_eq_true, beq_iff_eq, Bool.not_eq_true']
                at hcond
              have := htrip t ht hcond.1
              rw [this.1, this.2] at hcond
              exact absurd hcond.2 (by simp)
            · rw [if_neg h6]
              by_cases h7 : 1 < List.count '/' name.data
              · rw [if_pos h7]
                simp only [Except.isOk, Except.toBool, Bool.false_eq_true,
                  false_iff]
                rintro ⟨-, -, -, -, -, -, hslash, -⟩
                omega
              · rw [if_neg h7]
                by_cases h8 : List.count '+' name.data = 0 ∨
                    List.count '+' name.data = 2
                · rw [if_neg (not_not_intro h8)]
                  by_cases h9 : List.count '+' name.data = 2 ∧
                      List.indexOf '+' name.data + 1 ≠
                        name.data.length - 1 - List.indexOf '+' name.data.reverse
                  · rw [if_pos h9]
                    simp only [Except.isOk, Except.toBool, Bool.false_eq_true,
                      false_iff]
                    rintro ⟨-, -, -, -, -, -, -, -, hadj⟩
                    exact h9.2 (hadj h9.1)
                  · rw [if_neg h9]
                    simp only [Except.isOk, Except.toBool, true_iff]
                    refine ⟨?_, ?_, ?_, ?_, ?_, ?_, ?_, ?_, ?_⟩
                    · intro hnil
                      exact h1 (by simp [hnil])
                    · exact (option_all_iff _ _).mp h2
                    · intro c hc
                      have := (option_all_iff _ _).mp h3 c hc
                      simp only [Bool.or_eq_true, beq_iff_eq] at this
                      exact this
                    · intro c hc
                      have := List.all_eq_true.mp h4 c hc
                      simp only [Bool.or_eq_true] at this
                      rcases this with h | h
                      · exact Or.inl h
                      · exact Or.inr (by simpa using h)
                    · intro p hp hne hnal
                      rw [Bool.not_eq_true, List.any_eq_false] at h5
                      have := h5 p hp
                      simp only [Bool.and_eq_true, bne_iff_ne,
                        Bool.not_eq_true', beq_iff_eq, not_and] at this
                      exact this ⟨hne, hnal⟩
                    · intro t ht hdot
                      rw [Bool.not_eq_true, List.any_eq_false] at h6
                      have h6t := h6 t ht
                      simp only [Bool.and_eq_true, beq_iff_eq,
                        Bool.not_eq_true', not_and] at h6t
                      have hdig : (t.1.isDigit && t.2.2.isDigit) = true := by
                        cases hcase : (t.1.isDigit && t.2.2.isDigit)
                        · exact absurd hcase (h6t hdot)
                        · rfl
                      rw [Bool.and_eq_true] at hdig
                      exact hdig
                    · omega
                    · exact h8
                    · intro hcount
                      by_contra hne
                      exact h9 ⟨hcount, hne⟩
                · rw [if_pos h8]
                  simp only [Except.isOk, Except.toBool, Bool.false_eq_true,
                    false_iff]
                  rintro ⟨-, -, -, -, -, -, -, hplus, -⟩
                  exact h8 hplus
        · rw [if_pos h4]
          simp only [Except.isOk, Except.toBool, Bool.false_eq_true, false_iff]
          rintro ⟨-, -, -, hall, -⟩
          refine h4 (List.all_eq_true.mpr ?_)
          intro c hc
          rcases hall c hc with h | h <;> simp [h]
      · rw [if_pos h3]
        simp only [Except.isOk, Except.toBool, Bool.false_eq_true, false_iff]
        rintro ⟨-, -, hlast, -⟩
        refine h3 ((option_all_iff _ _).mpr ?_)
        intro c hc
        rcases hlast c hc with h | h <;> simp [h]
    · rw [if_pos h2]
      simp only [Except.isOk, Except.toBool, Bool.false_eq_true, false_iff]
      rintro ⟨-, hhead, -⟩
      exact h2 ((option_all_iff _ _).mpr hhead)

/-- C6 witness: the name `gtkmm-4.0` (from the repository's own tests)
satisfies every amended rule and is accepted. -/
theorem validateDepName_isOk_iff_witness :
    depNameOk "gtkmm-4.0" ∧ (validateDepName "gtkmm-4.0").isOk = true := by
  have h : depNameOk "gtkmm-4.0" := by
    refine ⟨by decide, by decide, by decide, by decide, by decide, by decide,
      by decide, by decide, by decide⟩
  exact ⟨h, (validateDepName_isOk_iff "gtkmm-4.0").mpr h⟩

/-- Helper: membership in the dedup pass. -/
theorem mem_dedupLibsFrom (seen ls : List String) (x : String) :
    x ∈ dedupLibsFrom seen ls ↔ x ∈ ls ∧ x ∉ seen := by
  induction ls generalizing seen with
  | nil => simp [dedupLibsFrom]
  | cons l ls ih =>
    by_cases h : seen.contains l
    · have hl : l ∈ seen := by simpa using h
      rw [dedupLibsFrom, if_pos h, ih]
      by_cases hx : x = l
      · subst hx
        simp [hl]
      · simp [hx]
    · have hl : l ∉ seen := by simpa using h
      rw [dedupLibsFrom, if_neg h]
      simp only [List.mem_cons, ih, not_or]
      constructor
      · rintro (hx | ⟨hm, _, hns⟩)
        · exact ⟨Or.inl hx, fun hc => hl (hx ▸ hc)⟩
        · exact ⟨Or.inr hm, hns⟩
      · rintro ⟨hx | hm, hns⟩
        · exact Or.inl hx
        · by_cases hxl : x = l
          · exact Or.inl hxl
          · exact Or.inr ⟨hm, hxl, hns⟩

/-- Helper: the dedup pass yields pairwise-distinct entries. -/
theorem nodup_dedupLibsFrom (seen ls : List String) :
    (dedupLibsFrom seen ls).Nodup := by
  induction ls generalizing seen with
  | nil => simp [dedupLibsFrom]
  | cons l ls ih =>
    by_cases h : seen.contains l
    · rw [dedupLibsFrom, if_pos h]
      exact ih seen
    · rw [dedupLibsFrom, if_neg h]
      refine List.Nodup.cons ?_ (ih (l :: seen))
      intro hmem
      have := (mem_dedupLibsFrom (l :: seen) ls l).mp hmem
      exact this.2 (List.mem_cons_self _ _)

/-- Helper: the dedup pass only reads the membership of the seen-set. -/
theorem dedupLibsFrom_congr (seen₁ seen₂ ls : List String)
    (h : ∀ x, x ∈ seen₁ ↔ x ∈ seen₂) :
    dedupLibsFrom seen₁ ls = dedupLibsFrom seen₂ ls := by
  induction ls generalizing seen₁ seen₂ with
  | nil => rfl
  | cons l ls ih =>
    have hc : seen₁.contains l = seen₂.contains l := by
      by_cases hl : l ∈ seen₁
      · have := (h l).mp hl
        simp [hl, this]
      · have h2 : l ∉ seen₂ := fun hx => hl ((h l).mpr hx)
        simp [hl, h2]
    by_cases h1 : seen₁.contains l
    · rw [dedupLibsFrom, if_pos h1, dedupLibsFrom, if_pos (hc ▸ h1)]
      exact ih seen₁ seen₂ h
    · rw [dedupLibsFrom, if_neg h1, dedupLibsFrom, if_neg (hc ▸ h1)]
      rw [ih (l :: seen₁) (l :: seen₂) (by intro x; simp [h x])]

/-- Helper: processing an appended list splits into two passes, the second
seeded with the first part as well. -/
theorem dedupLibsFrom_append (seen l₁ l₂ : List String) :
    dedupLibsFrom seen (l₁ ++ l₂) =
      dedupLibsFrom seen l₁ ++ dedupLibsFrom (l₁ ++ seen) l₂ := by
  induction l₁ generalizing seen with
  | nil => simp [dedupLibsFrom]
  | cons a l₁ ih =>
    by_cases h : seen.contains a
    · have ha : a ∈ seen := by simpa using h
      have hcongr : dedupLibsFrom (l₁ ++ seen) l₂ =
          dedupLibsFrom (a :: l₁ ++ seen) l₂ := by
        refine dedupLibsFrom_congr _ _ _ ?_
        intro x
        simp only [List.mem_append, List.mem_cons]
        constructor
        · tauto
        · intro hx
          rcases hx with (hx | hx) | hx
          · subst hx
            exact Or.inr ha
          · exact Or.inl hx
          · exact Or.inr hx
      rw [List.cons_append, dedupLibsFrom, if_pos h, dedupLibsFrom, if_pos h,
        ih seen, hcongr]
    · have hcongr : dedupLibsFrom (l₁ ++ a :: seen) l₂ =
          dedupLibsFrom (a :: l₁ ++ seen) l₂ := by
        refine dedupLibsFrom_congr _ _ _ ?_
        intro x
        simp only [List.mem_append, List.mem_cons]
        tauto
      rw [List.cons_append, dedupLibsFrom, if_neg h, dedupLibsFrom, if_neg h,
        ih (a :: seen), hcongr]
      simp

/-- Helper: a duplicate-free list disjoint from the seen-set passes through
the dedup unchanged. -/
theorem dedupLibsFrom_of_nodup (seen ls : List String) (hnd : ls.Nodup)
    (hdisj : ∀ x ∈ ls, x ∉ seen) : dedupLibsFrom seen ls = ls := by
  induction ls generalizing seen with
  | nil => rfl
  | cons l ls ih =>
    have hl : ¬ seen.contains l = true := by
      simpa using hdisj l (List.mem_cons_self _ _)
    rw [dedupLibsFrom, if_neg hl]
    congr 1
    refine ih (l :: seen) (List.Nodup.of_cons hnd) ?_
    intro x hx
    intro hmem
    rcases List.mem_cons.mp hmem with hmem | hmem
    · exact (List.nodup_cons.mp hnd).1 (hmem ▸ hx)
    · exact hdisj x (List.mem_cons_of_mem _ hx) hmem

/-- C8: `LdFlags` deduplicates libs by name preserving first occurrence:
the constructor's dedup yields pairwise-distinct names; merging keeps the
list duplicate-free; starting from a duplicate-free list, merging `Y` into
`X` is exactly the first-occurrence dedup of `X ++ Y`; and the resulting
name set is the commutative union of the two name sets, so merging in
either order yields the same set of lib names. -/
theorem mergeLibs_dedup_spec (X Y : List String) :
    (dedupLibs X).Nodup ∧
    (X.Nodup → (mergeLibs X Y).Nodup) ∧
    (X.Nodup → mergeLibs X Y = dedupLibs (X ++ Y)) ∧
    (mergeLibs X Y).toFinset = X.toFinset ∪ Y.toFinset ∧
    (mergeLibs X Y).toFinset = (mergeLibs Y X).toFinset := by
  refine ⟨nodup_dedupLibsFrom [] X, ?_, ?_, ?_, ?_⟩
  · intro hX
    rw [mergeLibs]
    refine List.Nodup.append hX (nodup_dedupLibsFrom X Y) ?_
    intro x hx hx'
    exact ((mem_dedupLibsFrom X Y x).mp hx').2 hx
  · intro hX
    rw [mergeLibs, dedupLibs, dedupLibsFrom_append]
    congr 1
    · exact (dedupLibsFrom_of_nodup [] X hX (by simp)).symm
    · exact dedupLibsFrom_congr X (X ++ []) Y (by simp)
  · ext x
    simp [mergeLibs, mem_dedupLibsFrom, List.mem_toFinset]
    tauto
  · ext x
    simp [mergeLibs, mem_dedupLibsFrom, List.mem_toFinset]
    tauto

/-- C8 witness: `X = [m]`, `Y = [z, m]`: the merge keeps `m` once and
appends `z`; the name sets agree in both merge orders. -/
theorem mergeLibs_dedup_spec_witness :
    (mergeLibs ["m"] ["z", "m"]).Nodup ∧
    mergeLibs ["m"] ["z", "m"] = dedupLibs (["m"] ++ ["z", "m"]) :=
  ⟨(mergeLibs_dedup_spec ["m"] ["z", "m"]).2.1 (by decide),
   (mergeLibs_dedup_spec ["m"] ["z", "m"]).2.2.1 (by decide)⟩

/-- Helper: `lookup` misses keys that are absent from the map. -/
theorem lookup_eq_none_of_not_mem {β : Type} (m : List (String × β))
    (k : String) (h : k ∉ m.map Prod.fst) : m.lookup k = none := by
  induction m with
  | nil => rfl
  | cons p rest ih =>
    simp only [List.map_cons, List.mem_cons, not_or] at h
    have hbeq : (k == p.1) = false := by simpa using h.1
    rw [List.lookup, hbeq]
    exact ih h.2

/-- Helper: `lookup` finds each entry of a key-duplicate-free association
list. -/
theorem lookup_of_mem_nodup {β : Type} (m : List (String × β))
    (hkeys : (m.map Prod.fst).Nodup) (p : String × β) (hp : p ∈ m) :
    m.lookup p.1 = some p.2 := by
  induction m with
  | nil => exact absurd hp (List.not_mem_nil p)
  | cons q rest ih =>
    rw [List.map_cons, List.nodup_cons] at hkeys
    rcases List.mem_cons.mp hp with hp | hp
    · subst hp
      have hbeq : (p.1 == p.1) = true := by simp
      rw [List.lookup, hbeq]
    · have hq : q.1 ≠ p.1 := by
        intro hqp
        exact hkeys.1 (hqp ▸ List.mem_map_of_mem Prod.fst hp)
      have hbeq : (p.1 == q.1) = false := by
        simp only [beq_eq_false_iff_ne]
        exact fun hh => hq hh.symm
      rw [List.lookup, hbeq]
      exact ih hkeys.2 hp

/-- Helper: registering fresh keys appends entries in order. -/
theorem foldl_mapSet_append (regs m : List (String × CompileUnit))
    (hkeys : (regs.map Prod.fst).Nodup)
    (hfresh : ∀ p ∈ regs, p.1 ∉ m.map Prod.fst) :
    regs.foldl (fun acc r => mapSet acc r.1 r.2) m = m ++ regs := by
  induction regs generalizing m with
  | nil => simp
  | cons r rest ih =>
    have hstep : mapSet m r.1 r.2 = m ++ [r] := by
      rw [mapSet,
        if_neg (by
          rw [lookup_eq_none_of_not_mem m r.1
            (hfresh r (List.mem_cons_self _ _))]
          simp)]
    rw [List.foldl_cons, hstep, ih]
    · simp
    · exact (List.nodup_cons.mp (by simpa using hkeys)).2
    · intro p hp
      simp only [List.map_append, List.mem_append, not_or]
      constructor
      · exact hfresh p (List.mem_cons_of_mem _ hp)
      · have hne : p.1 ≠ r.1 := by
          intro hpr
          rw [List.map_cons, List.nodup_cons] at hkeys
          exact hkeys.1 (hpr ▸ List.mem_map_of_mem Prod.fst hp)
        simpa using hne

/-- C2, counterexample: the claim says two distinct source files cannot be
registered under the same object-target string.  But two sources that
differ only in extension (`src/foo.cc` and `src/foo.cpp`, both scanned to
target `foo.o` by the `-MM` run of `processSrc`) are both registered under
`foo.o`; the second registration silently overwrites the first, so after
planning the map holds no unit for `src/foo.cc` and the map is not a
bijection between source paths and object targets. -/
theorem compile_unit_bijection_refuted :
    registerUnits [("foo.o", ⟨"src/foo.cc", [], false⟩),
                   ("foo.o", ⟨"src/foo.cpp", [], false⟩)] =
      [("foo.o", ⟨"src/foo.cpp", [], false⟩)] ∧
    ("src/foo.cc" : String) ≠ "src/foo.cpp" := by
  exact ⟨rfl, by decide⟩

/-- C2, amended: the compile-unit map holds at most one unit per
object-target string, a later registration with an equal object target
overwriting the earlier one; whenever the registered object targets are
pairwise distinct the map ends up with exactly the registered pairs, each
object target looking up to its own unit, so registration is then a
bijection between object targets and registered units. -/
theorem registerUnits_bijection (regs : List (String × CompileUnit))
    (hkeys : (regs.map Prod.fst).Nodup) :
    registerUnits regs = regs ∧
    (∀ p ∈ regs, (registerUnits regs).lookup p.1 = some p.2) := by
  have heq : registerUnits regs = regs := by
    rw [registerUnits, foldl_mapSet_append regs [] hkeys (by simp)]
    simp
  refine ⟨heq, ?_⟩
  intro p hp
  rw [heq]
  exact lookup_of_mem_nodup regs hkeys p hp

/-- C2 witness: two distinct sources under two distinct object targets
register as a bijection. -/
theorem registerUnits_bijection_witness :
    registerUnits [("a.o", ⟨"src/a.cc", [], false⟩),
                   ("b.o", ⟨"src/b.cc", [], false⟩)] =
      [("a.o", ⟨"src/a.cc", [], false⟩), ("b.o", ⟨"src/b.cc", [], false⟩)] :=
  (registerUnits_bijection
    [("a.o", ⟨"src/a.cc", [], false⟩), ("b.o", ⟨"src/b.cc", [], false⟩)]
    (by decide)).1

/-- Helper: `sortStrings` output is sorted. -/
theorem sortStrings_sorted (l : List String) : (sortStrings l).Sorted strLe :=
  List.sorted_insertionSort strLe l

/-- Helper: `sortStrings` output is a permutation of its input. -/
theorem sortStrings_perm (l : List String) : (sortStrings l).Perm l :=
  List.perm_insertionSort strLe l

/-- Helper: sorting is invariant under permutation of the input - the
planner's output does not depend on the nondeterministic order in which
the parallel scan filled the dependency sets. -/
theorem sortStrings_eq_of_perm {l₁ l₂ : List String} (h : l₁.Perm l₂) :
    sortStrings l₁ = sortStrings l₂ :=
  List.eq_of_perm_of_sorted
    (((sortStrings_perm l₁).trans h).trans (sortStrings_perm l₂).symm)
    (sortStrings_sorted l₁) (sortStrings_sorted l₂)

/-- C1, counterexample: the claim says every emitted link edge has
lexicographically sorted inputs.  But a unit-test link edge puts the
test's own object first and appends the archive last around the sorted
closure, and the binary link edge with a library target does the same with
`main.o` first - neither list is sorted as a whole. -/
theorem edge_inputs_sorted_refuted :
    (unittestLinkEdge "unit/src/z.test" "unit/src/z.o" true ["a.o"] true
        "libx.a").inputs = ["unit/src/z.o", "a.o", "libx.a"] ∧
    ¬ (["unit/src/z.o", "a.o", "libx.a"] : List String).Sorted strLe ∧
    binaryLinkInputs "main.o" ["main.o", "a.o"] [] true "libz.a" =
      ["main.o", "a.o", "libz.a"] ∧
    ¬ (["main.o", "a.o", "libz.a"] : List String).Sorted strLe := by
  exact ⟨rfl, by decide, rfl, by decide⟩

/-- C1, amended: compile-edge implicit inputs, integration-test link
inputs, static-library archive inputs, and the binary link inputs without
a library target are sorted lexicographically; the unit-test link edge and
the binary link edge with a library target consist of the distinguished
first object, then a lexicographically sorted middle segment, then the
archive name; and every one of these lists is invariant under permuting
the scanned sets, so the emitted plan is deterministic regardless of the
nondeterministic insertion order of the parallel scan. -/
theorem edge_inputs_spec (objTarget sourceFile testObj mainObj libName : String)
    (deps closure libObjs : List String) (isTest hasLib : Bool) :
    (compileEdge objTarget sourceFile deps isTest).implicitInputs.Sorted strLe ∧
    (compileEdge objTarget sourceFile deps isTest).inputs = [sourceFile] ∧
    (integrationLinkInputs testObj hasLib libName).Sorted strLe ∧
    (libraryArchiveInputs libObjs).Sorted strLe ∧
    (binaryLinkInputs mainObj deps libObjs false libName).Sorted strLe ∧
    (∃ mid, binaryLinkInputs mainObj deps libObjs true libName =
        mainObj :: (mid ++ [libName]) ∧ mid.Sorted strLe) ∧
    (∃ mid, unittestLinkInputs testObj true closure hasLib libName =
        testObj :: (mid ++ (if hasLib then [libName] else [])) ∧
        mid.Sorted strLe) ∧
    (unittestLinkInputs testObj false closure hasLib libName =
        testObj :: (if hasLib then [libName] else [])) ∧
    (∀ deps₂, deps.Perm deps₂ →
      compileEdge objTarget sourceFile deps isTest =
        compileEdge objTarget sourceFile deps₂ isTest) ∧
    (∀ closure₂, closure.Perm closure₂ →
      unittestLinkInputs testObj true closure hasLib libName =
        unittestLinkInputs testObj true closure₂ hasLib libName) ∧
    (∀ deps₂, deps.Perm deps₂ →
      binaryLinkInputs mainObj deps libObjs hasLib libName =
        binaryLinkInputs mainObj deps₂ libObjs hasLib libName) ∧
    (∀ libObjs₂, libObjs.Perm libObjs₂ →
      libraryArchiveInputs libObjs = libraryArchiveInputs libObjs₂) := by
  refine ⟨sortStrings_sorted deps, rfl, sortStrings_sorted _,
    sortStrings_sorted libObjs, ?_, ?_, ?_, ?_, ?_, ?_, ?_, ?_⟩
  · rw [binaryLinkInputs]
    simp only [Bool.false_eq_true, if_false]
    exact sortStrings_sorted deps
  · exact ⟨sortStrings ((deps.erase mainObj).filter
        (fun d => ¬ libObjs.contains d)),
      by rw [binaryLinkInputs]; simp, sortStrings_sorted _⟩
  · exact ⟨sortStrings closure,
      by rw [unittestLinkInputs]; simp, sortStrings_sorted _⟩
  · rw [unittestLinkInputs]
    simp
  · intro deps₂ hperm
    have h := sortStrings_eq_of_perm hperm
    simp [compileEdge, h]
  · intro closure₂ hperm
    simp only [unittestLinkInputs]
    rw [sortStrings_eq_of_perm hperm]
  · intro deps₂ hperm
    cases hasLib with
    | false =>
      simp only [binaryLinkInputs, Bool.false_eq_true, if_false]
      exact sortStrings_eq_of_perm hperm
    | true =>
      simp only [binaryLinkInputs, if_true]
      rw [sortStrings_eq_of_perm ((hperm.erase mainObj).filter _)]
  · intro libObjs₂ hperm
    exact sortStrings_eq_of_perm hperm

/-- C1 witness: two scan orders of the same dependency set yield the same
compile edge. -/
theorem edge_inputs_spec_witness :
    compileEdge "foo.o" "src/foo.cc" ["b.h", "a.h"] false =
      compileEdge "foo.o" "src/foo.cc" ["a.h", "b.h"] false :=
  (edge_inputs_spec "foo.o" "src/foo.cc" "t.o" "main.o" "libx.a"
      ["b.h", "a.h"] [] [] false false).2.2.2.2.2.2.2.2.1 ["a.h", "b.h"]
    (List.Perm.swap "a.h" "b.h" [])

/-- Helper: the executed-binaries trace of the test loop. -/
theorem runTests_foldl_executed (exitOf : String → Nat)
    (filter : Option String) (ts : List TestTarget) (st : TestRunState) :
    (ts.foldl (runTestsStep exitOf filter) st).executed =
      st.executed ++ ((ts.filter
        (fun t => matchesFilter filter t.ninjaTarget)).map
          TestTarget.ninjaTarget) := by
  induction ts generalizing st with
  | nil => simp
  | cons t ts ih =>
    rw [List.foldl_cons, ih]
    by_cases hm : matchesFilter filter t.ninjaTarget = true
    · by_cases hz : exitOf t.ninjaTarget = 0 <;>
        simp [runTestsStep, hm, hz, List.filter_cons]
    · simp only [Bool.not_eq_true] at hm
      simp [runTestsStep, hm, List.filter_cons]

/-- Helper: the counter updates of the test loop. -/
theorem runTests_foldl_counts (exitOf : String → Nat)
    (filter : Option String) (ts : List TestTarget) (st : TestRunState) :
    (ts.foldl (runTestsStep exitOf filter) st).numPassed =
      st.numPassed + ts.countP
        (fun t => matchesFilter filter t.ninjaTarget &&
          exitOf t.ninjaTarget == 0) ∧
    (ts.foldl (runTestsStep exitOf filter) st).numFailed =
      st.numFailed + ts.countP
        (fun t => matchesFilter filter t.ninjaTarget &&
          !(exitOf t.ninjaTarget == 0)) ∧
    (ts.foldl (runTestsStep exitOf filter) st).numFilteredOut =
      st.numFilteredOut + ts.countP
        (fun t => !(matchesFilter filter t.ninjaTarget)) := by
  induction ts generalizing st with
  | nil => simp
  | cons t ts ih =>
    rw [List.foldl_cons]
    obtain ⟨ihp, ihf, ihfo⟩ := ih (runTestsStep exitOf filter st t)
    rw [ihp, ihf, ihfo]
    by_cases hm : matchesFilter filter t.ninjaTarget = true <;>
      by_cases hz : exitOf t.ninjaTarget = 0 <;>
        refine ⟨?_, ?_, ?_⟩ <;>
          simp [runTestsStep, hm, hz, List.countP_cons] <;> omega

/-- Helper: the failure flag of the test loop is the conjunction of the
executed tests' successes. -/
theorem runTests_foldl_summaryOk (exitOf : String → Nat)
    (filter : Option String) (ts : List TestTarget) (st : TestRunState) :
    (ts.foldl (runTestsStep exitOf filter) st).summaryOk =
      (st.summaryOk && (ts.filter
        (fun t => matchesFilter filter t.ninjaTarget)).all
          (fun t => exitOf t.ninjaTarget == 0)) := by
  induction ts generalizing st with
  | nil => simp
  | cons t ts ih =>
    rw [List.foldl_cons, ih]
    by_cases hm : matchesFilter filter t.ninjaTarget = true
    · by_cases hz : exitOf t.ninjaTarget = 0
      · simp [runTestsStep, hm, hz, List.filter_cons]
      · simp [runTestsStep, hm, hz, List.filter_cons]
    · simp only [Bool.not_eq_true] at hm
      simp [runTestsStep, hm, List.filter_cons]

/-- Helper: the three counters partition the target list. -/
theorem countP_partition_tests (exitOf : String → Nat)
    (filter : Option String) (ts : List TestTarget) :
    ts.countP (fun t => matchesFilter filter t.ninjaTarget &&
        exitOf t.ninjaTarget == 0) +
      ts.countP (fun t => matchesFilter filter t.ninjaTarget &&
        !(exitOf t.ninjaTarget == 0)) +
      ts.countP (fun t => !(matchesFilter filter t.ninjaTarget)) =
      ts.length := by
  induction ts with
  | nil => simp
  | cons t ts ih =>
    simp only [List.countP_cons, List.length_cons]
    by_cases hm : matchesFilter filter t.ninjaTarget = true <;>
      by_cases hz : exitOf t.ninjaTarget = 0 <;>
        simp [hm, hz] <;> omega

/-- C7: `Builder::test` runs the planned test targets sequentially in
lexicographic order of their executor target name (the list is the sorted
output of `BuildGraph::configure`); a test is executed iff no filter was
given or its target name contains the filter substring; passed + failed +
filtered-out equals the number of test targets; the outcome is success iff
every executed binary exited zero; and any failure outcome carries exactly
the summary `{passed} passed; {failed} failed; {filtered out} filtered
out; finished in <duration>s`. -/
theorem builder_test_spec (exitOf : String → Nat) (filter : Option String)
    (dur : String) (targets : List TestTarget) :
    (sortTestTargets targets).Sorted testTargetLe ∧
    (sortTestTargets targets).Perm targets ∧
    (runTests exitOf filter (sortTestTargets targets)).executed =
      ((sortTestTargets targets).filter
        (fun t => matchesFilter filter t.ninjaTarget)).map
          TestTarget.ninjaTarget ∧
    (runTests exitOf filter (sortTestTargets targets)).numPassed +
      (runTests exitOf filter (sortTestTargets targets)).numFailed +
      (runTests exitOf filter (sortTestTargets targets)).numFilteredOut =
      targets.length ∧
    (builderTestOutcome exitOf filter dur targets = .ok () ↔
      ∀ n ∈ (runTests exitOf filter (sortTestTargets targets)).executed,
        exitOf n = 0) ∧
    (∀ msg, builderTestOutcome exitOf filter dur targets = .error msg →
      msg = mkTestSummary
        (runTests exitOf filter (sortTestTargets targets)).numPassed
        (runTests exitOf filter (sortTestTargets targets)).numFailed
        (runTests exitOf filter (sortTestTargets targets)).numFilteredOut
        dur) := by
  have hsorted : (sortTestTargets targets).Sorted testTargetLe :=
    List.sorted_insertionSort testTargetLe targets
  have hperm : (sortTestTargets targets).Perm targets :=
    List.perm_insertionSort testTargetLe targets
  have hexec : (runTests exitOf filter (sortTestTargets targets)).executed =
      ((sortTestTargets targets).filter
        (fun t => matchesFilter filter t.ninjaTarget)).map
          TestTarget.ninjaTarget := by
    rw [runTests, runTests_foldl_executed]
    simp [initialTestRunState]
  have hsum : (runTests exitOf filter (sortTestTargets targets)).summaryOk =
      ((sortTestTargets targets).filter
        (fun t => matchesFilter filter t.ninjaTarget)).all
          (fun t => exitOf t.ninjaTarget == 0) := by
    rw [runTests, runTests_foldl_summaryOk]
    simp [initialTestRunState]
  obtain ⟨hp, hf, hfo⟩ := runTests_foldl_counts exitOf filter
    (sortTestTargets targets) initialTestRunState
  have hpass : (runTests exitOf filter (sortTestTargets targets)).numPassed =
      (sortTestTargets targets).countP
        (fun t => matchesFilter filter t.ninjaTarget &&
          exitOf t.ninjaTarget == 0) := by
    rw [runTests, hp]
    simp [initialTestRunState]
  have hfail : (runTests exitOf filter (sortTestTargets targets)).numFailed =
      (sortTestTargets targets).countP
        (fun t => matchesFilter filter t.ninjaTarget &&
          !(exitOf t.ninjaTarget == 0)) := by
    rw [runTests, hf]
    simp [initialTestRunState]
  have hfilt : (runTests exitOf filter
        (sortTestTargets targets)).numFilteredOut =
      (sortTestTargets targets).countP
        (fun t => !(matchesFilter filter t.ninjaTarget)) := by
    rw [runTests, hfo]
    simp [initialTestRunState]
  have hallexec : ((sortTestTargets targets).filter
      (fun t => matchesFilter filter t.ninjaTarget)).all
        (fun t => exitOf t.ninjaTarget == 0) = true ↔
      ∀ n ∈ (runTests exitOf filter (sortTestTargets targets)).executed,
        exitOf n = 0 := by
    rw [hexec, List.all_eq_true]
    constructor
    · intro hall n hn
      rw [List.mem_map] at hn
      obtain ⟨t, ht, hteq⟩ := hn
      have := hall t ht
      rw [beq_iff_eq] at this
      rw [← hteq]
      exact this
    · intro hall t ht
      rw [beq_iff_eq]
      exact hall t.ninjaTarget (List.mem_map_of_mem TestTarget.ninjaTarget ht)
  refine ⟨hsorted, hperm, hexec, ?_, ?_, ?_⟩
  · rw [hpass, hfail, hfilt, countP_partition_tests]
    exact hperm.length_eq
  · rw [builderTestOutcome]
    cases hok : (runTests exitOf filter (sortTestTargets targets)).summaryOk
    · rw [if_neg (by simp [hok])]
      simp only [reduceCtorEq, false_iff]
      rw [hsum] at hok
      intro hall
      rw [← hallexec] at hall
      rw [hok] at hall
      exact absurd hall (by simp)
    · rw [if_pos (by simp [hok])]
      simp only [true_iff]
      rw [hsum] at hok
      exact hallexec.mp hok
  · intro msg hmsg
    rw [builderTestOutcome] at hmsg
    cases hok : (runTests exitOf filter (sortTestTargets targets)).summaryOk
    · rw [if_neg (by simp [hok])] at hmsg
      exact (Except.error.injEq _ _ ▸ hmsg).symm ▸ rfl
    · rw [if_pos (by simp [hok])] at hmsg
      exact absurd hmsg (by simp)

/-- C7 witness: a single always-failing test with no filter yields the
failure summary `0 passed; 1 failed; 0 filtered out; finished in 0.05s`. -/
theorem builder_test_spec_witness :
    ("0 passed; 1 failed; 0 filtered out; finished in 0.05s" : String) =
      mkTestSummary
        (runTests (fun _ => 1) none
          (sortTestTargets [⟨"t1", "src/t1.cc", .unit⟩])).numPassed
        (runTests (fun _ => 1) none
          (sortTestTargets [⟨"t1", "src/t1.cc", .unit⟩])).numFailed
        (runTests (fun _ => 1) none
          (sortTestTargets [⟨"t1", "src/t1.cc", .unit⟩])).numFilteredOut
        "0.05" :=
  (builder_test_spec (fun _ => 1) none "0.05"
      [⟨"t1", "src/t1.cc", .unit⟩]).2.2.2.2.2
    "0 passed; 1 failed; 0 filtered out; finished in 0.05s" rfl

/-- Helper: unfolding `collectF` on an empty dependency list. -/
theorem collectF_nil (g : CUGraphModel) (targets : Finset String)
    (src : String) (fuel : Nat) (deps : Finset String) :
    collectF g targets src fuel deps [] = deps := by
  simp [collectF]

/-- Helper: unfolding `collectF` on a non-empty dependency list. -/
theorem collectF_cons (g : CUGraphModel) (targets : Finset String)
    (src : String) (fuel : Nat) (deps : Finset String) (h : String)
    (hs : List String) :
    collectF g targets src fuel deps (h :: hs) =
      if src = g.stemOf h then collectF g targets src fuel deps hs
      else if ¬ g.isHeaderName h then collectF g targets src fuel deps hs
      else
        if g.mapHeaderToObj h ∈ targets then
          if g.mapHeaderToObj h ∈ deps then collectF g targets src fuel deps hs
          else
            match fuel with
            | 0 => collectF g targets src 0 deps hs
            | fuel' + 1 =>
              collectF g targets src (fuel' + 1)
                (collectF g targets src fuel'
                  (insert (g.mapHeaderToObj h) deps)
                  (unitDeps g (g.mapHeaderToObj h)))
                hs
        else collectF g targets src fuel deps hs := by
  rw [collectF.eq_def]

/-- Helper: the visited set only grows during the traversal. -/
theorem collectF_superset (g : CUGraphModel) (targets : Finset String)
    (src : String) :
    ∀ fuel hdrs deps, deps ⊆ collectF g targets src fuel deps hdrs := by
  intro fuel
  induction fuel using Nat.strong_induction_on with
  | _ fuel IHf =>
    intro hdrs
    induction hdrs with
    | nil =>
      intro deps
      rw [collectF_nil]
    | cons h hs IHh =>
      intro deps
      rw [collectF_cons]
      by_cases h1 : src = g.stemOf h
      · rw [if_pos h1]
        exact IHh deps
      · rw [if_neg h1]
        by_cases h2 : ¬ g.isHeaderName h = true
        · rw [if_pos h2]
          exact IHh deps
        · rw [if_neg h2]
          by_cases h3 : g.mapHeaderToObj h ∈ targets
          · rw [if_pos h3]
            by_cases h4 : g.mapHeaderToObj h ∈ deps
            · rw [if_pos h4]
              exact IHh deps
            · rw [if_neg h4]
              cases fuel with
              | zero => exact IHh deps
              | succ fuel' =>
                refine Finset.Subset.trans ?_ (IHh _)
                refine Finset.Subset.trans ?_
                  (IHf fuel' (Nat.lt_succ_self fuel') _ _)
                exact Finset.subset_insert _ deps
          · rw [if_neg h3]
            exact IHh deps

/-- Helper: the traversal only adds buildable object targets. -/
theorem collectF_subset (g : CUGraphModel) (targets : Finset String)
    (src : String) :
    ∀ fuel hdrs deps,
      collectF g targets src fuel deps hdrs ⊆ deps ∪ targets := by
  intro fuel
  induction fuel using Nat.strong_induction_on with
  | _ fuel IHf =>
    intro hdrs
    induction hdrs with
    | nil =>
      intro deps
      rw [collectF_nil]
      exact Finset.subset_union_left
    | cons h hs IHh =>
      intro deps
      rw [collectF_cons]
      by_cases h1 : src = g.stemOf h
      · rw [if_pos h1]
        exact IHh deps
      · rw [if_neg h1]
        by_cases h2 : ¬ g.isHeaderName h = true
        · rw [if_pos h2]
          exact IHh deps
        · rw [if_neg h2]
          by_cases h3 : g.mapHeaderToObj h ∈ targets
          · rw [if_pos h3]
            by_cases h4 : g.mapHeaderToObj h ∈ deps
            · rw [if_pos h4]
              exact IHh deps
            · rw [if_neg h4]
              cases fuel with
              | zero => exact IHh deps
              | succ fuel' =>
                have hX : collectF g targets src fuel'
                    (insert (g.mapHeaderToObj h) deps)
                    (unitDeps g (g.mapHeaderToObj h)) ⊆ deps ∪ targets := by
                  refine Finset.Subset.trans
                    (IHf fuel' (Nat.lt_succ_self fuel') _ _) ?_
                  intro x hx
                  rcases Finset.mem_union.mp hx with hx | hx
                  · rcases Finset.mem_insert.mp hx with hx | hx
                    · exact Finset.mem_union_right _ (hx ▸ h3)
                    · exact Finset.mem_union_left _ hx
                  · exact Finset.mem_union_right _ hx
                refine Finset.Subset.trans (IHh _) ?_
                intro x hx
                rcases Finset.mem_union.mp hx with hx | hx
                · exact hX hx
                · exact Finset.mem_union_right _ hx
          · rw [if_neg h3]
            exact IHh deps

/-- Helper: one extra unit of recursion budget changes nothing once the
budget covers the unvisited buildable targets - the heart of the
termination argument: each expansion inserts a fresh target, so the
unvisited count strictly drops. -/
theorem collectF_fuel_step (g : CUGraphModel) (targets : Finset String)
    (src : String) :
    ∀ fuel hdrs deps, (targets \ deps).card ≤ fuel →
      collectF g targets src fuel deps hdrs =
        collectF g targets src (fuel + 1) deps hdrs := by
  intro fuel
  induction fuel using Nat.strong_induction_on with
  | _ fuel IHf =>
    intro hdrs
    induction hdrs with
    | nil =>
      intro deps _
      rw [collectF_nil, collectF_nil]
    | cons h hs IHh =>
      intro deps hcard
      rw [collectF_cons, collectF_cons]
      by_cases h1 : src = g.stemOf h
      · rw [if_pos h1, if_pos h1]
        exact IHh deps hcard
      · rw [if_neg h1, if_neg h1]
        by_cases h2 : ¬ g.isHeaderName h = true
        · rw [if_pos h2, if_pos h2]
          exact IHh deps hcard
        · rw [if_neg h2, if_neg h2]
          by_cases h3 : g.mapHeaderToObj h ∈ targets
          · rw [if_pos h3, if_pos h3]
            by_cases h4 : g.mapHeaderToObj h ∈ deps
            · rw [if_pos h4, if_pos h4]
              exact IHh deps hcard
            · rw [if_neg h4, if_neg h4]
              have hmemsd : g.mapHeaderToObj h ∈ targets \ deps :=
                Finset.mem_sdiff.mpr ⟨h3, h4⟩
              have hpos : 0 < (targets \ deps).card :=
                Finset.card_pos.mpr ⟨g.mapHeaderToObj h, hmemsd⟩
              cases fuel with
              | zero => omega
              | succ fuel' =>
                have hsub : targets \ insert (g.mapHeaderToObj h) deps ⊆
                    targets \ deps :=
                  Finset.sdiff_subset_sdiff (Finset.Subset.refl _)
                    (Finset.subset_insert _ _)
                have hlt : (targets \ insert (g.mapHeaderToObj h) deps).card <
                    (targets \ deps).card := by
                  refine Finset.card_lt_card ?_
                  rw [Finset.ssubset_iff_of_subset hsub]
                  exact ⟨g.mapHeaderToObj h, hmemsd, by simp⟩
                have hcard' : (targets \
                    insert (g.mapHeaderToObj h) deps).card ≤ fuel' := by
                  omega
                have hinner := IHf fuel' (Nat.lt_succ_self fuel')
                  (unitDeps g (g.mapHeaderToObj h))
                  (insert (g.mapHeaderToObj h) deps) hcard'
                show collectF g targets src (fuel' + 1)
                    (collectF g targets src fuel'
                      (insert (g.mapHeaderToObj h) deps)
                      (unitDeps g (g.mapHeaderToObj h))) hs =
                  collectF g targets src (fuel' + 1 + 1)
                    (collectF g targets src (fuel' + 1)
                      (insert (g.mapHeaderToObj h) deps)
                      (unitDeps g (g.mapHeaderToObj h))) hs
                rw [← hinner]
                refine IHh _ ?_
                have hgrow : insert (g.mapHeaderToObj h) deps ⊆
                    collectF g targets src fuel'
                      (insert (g.mapHeaderToObj h) deps)
                      (unitDeps g (g.mapHeaderToObj h)) :=
                  collectF_superset g targets src fuel' _ _
                have hsub2 : targets \ collectF g targets src fuel'
                    (insert (g.mapHeaderToObj h) deps)
                    (unitDeps g (g.mapHeaderToObj h)) ⊆
                    targets \ insert (g.mapHeaderToObj h) deps :=
                  Finset.sdiff_subset_sdiff (Finset.Subset.refl _) hgrow
                have := Finset.card_le_card hsub2
                omega
          · rw [if_neg h3, if_neg h3]
            exact IHh deps hcard

/-- Helper: any two sufficient budgets agree. -/
theorem collectF_fuel_ge (g : CUGraphModel) (targets : Finset String)
    (src : String) (hdrs : List String) (deps : Finset String) (f k : Nat)
    (hf : (targets \ deps).card ≤ f) :
    collectF g targets src f deps hdrs =
      collectF g targets src (f + k) deps hdrs := by
  induction k with
  | zero => rfl
  | succ k ih =>
    rw [ih, ← Nat.add_assoc]
    exact collectF_fuel_step g targets src (f + k) hdrs deps
      (le_trans hf (Nat.le_add_right f k))

/-- C9: `collectBinDepObjs` terminates on every finite compile-unit graph,
cyclic header-to-object dependencies included: since a target is recursed
into only when it is freshly inserted into the visited set, the number of
unvisited buildable targets strictly drops at each expansion, so any
recursion budget of at least `(targets \ deps).card` yields one and the
same result - the fixed point the recursion reaches; moreover the result
contains the initial set and adds only buildable targets. -/
theorem collectBinDepObjs_terminates (g : CUGraphModel)
    (targets : Finset String) (src : String) (deps : Finset String)
    (hdrs : List String) (f₁ f₂ : Nat)
    (h₁ : (targets \ deps).card ≤ f₁) (h₂ : (targets \ deps).card ≤ f₂) :
    collectF g targets src f₁ deps hdrs =
      collectF g targets src f₂ deps hdrs ∧
    deps ⊆ collectBinDepObjs g targets src deps hdrs ∧
    collectBinDepObjs g targets src deps hdrs ⊆ deps ∪ targets := by
  refine ⟨?_, collectF_superset g targets src _ _ _,
    collectF_subset g targets src _ _ _⟩
  rcases le_total f₁ f₂ with hle | hle
  · have : f₂ = f₁ + (f₂ - f₁) := by omega
    rw [this]
    exact collectF_fuel_ge g targets src hdrs deps f₁ (f₂ - f₁) h₁
  · have : f₁ = f₂ + (f₁ - f₂) := by omega
    rw [this]
    exact (collectF_fuel_ge g targets src hdrs deps f₂ (f₁ - f₂) h₂).symm

/-- C9 witness: a two-unit graph whose headers form a cycle
(`a.o` depends on `b.hpp`, `b.o` depends on `a.hpp`); the traversal from
`a.hpp` reaches the same fixed point under budgets 2 and 5. -/
theorem collectBinDepObjs_terminates_witness :
    ((({"a.o", "b.o"} : Finset String) \ (∅ : Finset String)).card ≤ 2) ∧
    collectF
      (CUGraphModel.mk [("a.o", ["b.hpp"]), ("b.o", ["a.hpp"])]
        (fun h => if h = "a.hpp" then "a.o" else "b.o")
        (fun _ => true) (fun h => h))
      {"a.o", "b.o"} "main" 2 ∅ ["a.hpp"] =
    collectF
      (CUGraphModel.mk [("a.o", ["b.hpp"]), ("b.o", ["a.hpp"])]
        (fun h => if h = "a.hpp" then "a.o" else "b.o")
        (fun _ => true) (fun h => h))
      {"a.o", "b.o"} "main" 5 ∅ ["a.hpp"] :=
  ⟨by decide,
    (collectBinDepObjs_terminates
      (CUGraphModel.mk [("a.o", ["b.hpp"]), ("b.o", ["a.hpp"])]
        (fun h => if h = "a.hpp" then "a.o" else "b.o")
        (fun _ => true) (fun h => h))
      {"a.o", "b.o"} "main" ∅ ["a.hpp"] 2 5 (by decide) (by decide)).1⟩

end Cabin
